import Mathlib

/-!
Verification of the frame codec, connection pump, listener and handler
adapter of `src/agent.rs` (a minimal length-prefixed message server
framework), against its natural-language specification.

Bytes are modelled as `Nat` values (the source works on `u8` buffers;
every arithmetic read takes the value modulo 256 explicitly).  Fallible
operations return `Except`/`Option`.  The mutable `BytesMut` receive
buffer is modelled by explicit state passing: `decode` returns the
result together with the buffer left behind by the call.
-/

/-- Big-endian 32-bit value of four bytes, as read by
`byteorder::ReadBytesExt::read_u32::<BigEndian>` (16777216 = 2^24,
65536 = 2^16; each byte is a `u8`, hence the `% 256`). -/
def u32val (b0 b1 b2 b3 : Nat) : Nat :=
  b0 % 256 * 16777216 + b1 % 256 * 65536 + b2 % 256 * 256 + b3 % 256

/-- `bytes.read_u32::<BigEndian>()` on a byte slice: fails when fewer
than four bytes remain, otherwise yields the value and the slice
advanced past the four header bytes. -/
def read_u32_be : List Nat → Option (Nat × List Nat)
  | b0 :: b1 :: b2 :: b3 :: rest => some (u32val b0 b1 b2 b3, rest)
  | _ => none

/-- Big-endian 4-byte encoding of a 32-bit value (truncating above
2^32 = 4294967296, as a `u32` store would). -/
def u32be_bytes (n : Nat) : List Nat :=
  [n / 16777216 % 256, n / 65536 % 256, n / 256 % 256, n % 256]

/-- Modelled from the spec: the error kinds of `super::error::AgentError`
(not under `src/`): `Deserialize` / `Serialize` for codec failures, `Io`
for the byte-reader failure propagated by `?`, `User` for handler
failures. -/
inductive AgentError where
  | Deserialize
  | Serialize
  | Io
  | User
deriving DecidableEq, Repr

/-- Modelled from the spec: the collaborator serialization interface
`super::proto::{to_bytes, from_bytes}` on the opaque `Message` type (the
module is not under `src/`).  The spec assumes "a byte-exact
encode/decode pair between a typed value and a byte sequence, failing
with a decode error on malformed input"; both directions are therefore
fallible and otherwise abstract. -/
structure ProtoCodec (M : Type) where
  to_bytes : M → Option (List Nat)
  from_bytes : List Nat → Option M

/-- Modelled from the spec: serializing a raw byte sequence through the
same collaborator mechanism (the outer `to_bytes` call of `encode`).
The spec states the serialization format "self-describes its own
length" and that a frame is "a 4-byte unsigned big-endian length field
L, followed by exactly L bytes": the serialized form of a byte string
is its big-endian 4-byte length followed by the bytes themselves. -/
def to_bytes_blob (b : List Nat) : List Nat :=
  u32be_bytes b.length ++ b

/-- `MessageCodec::decode` (src/agent.rs lines 33-49).  The `BytesMut`
buffer is passed in and the buffer state after the call is returned
alongside the result: `src.advance(4 + length)` happens only on the
success path.  `from_bytes` is applied to the whole slice that follows
the four header bytes, and a collaborator decode failure is surfaced as
a `Deserialize` error. -/
def MessageCodec.decode {M : Type} (c : ProtoCodec M) (src : List Nat) :
    Except AgentError (Option M) × List Nat :=
  if src.length < 4 then (Except.ok none, src)
  else
    match read_u32_be src with
    | none => (Except.error AgentError.Io, src)
    | some (length, bytes) =>
      if bytes.length < length then (Except.ok none, src)
      else
        match c.from_bytes bytes with
        | none => (Except.error AgentError.Deserialize, src)
        | some message => (Except.ok (some message), List.drop (4 + length) src)

/-- `MessageCodec::encode` (src/agent.rs lines 55-59):
`to_bytes(&to_bytes(&item)?)?` appended to the outgoing buffer `dst`
via `dst.put(bytes)`; the new buffer contents are returned. -/
def MessageCodec.encode {M : Type} (c : ProtoCodec M) (item : M) (dst : List Nat) :
    Except AgentError (List Nat) :=
  match c.to_bytes item with
  | none => Except.error AgentError.Serialize
  | some p => Except.ok (dst ++ to_bytes_blob p)

/-- The per-connection message pump built by `handle_clients`
(src/agent.rs lines 71-84): `write.send_all(read.and_then(|message|
handle_async(message)))`.  The framed reader repeatedly decodes from
the receive buffer; each decoded message is handed to the handler, the
response is encoded and written to the connection before the next
message is decoded.  The pump stops at the "need more data" signal
(stream exhausted) and aborts on the first decode, handler or encode
error.  Alongside the outgoing bytes it returns the trace of messages
handed to the handler, in invocation order.  Termination: a
successful decode always drops the 4-byte header, shrinking the
buffer. -/
def runPump {M : Type} (c : ProtoCodec M) (h : M → Except AgentError M)
    (src : List Nat) : Except AgentError (List Nat × List M) :=
  match hdec : MessageCodec.decode c src with
  | (Except.error e, _) => Except.error e
  | (Except.ok none, _) => Except.ok ([], [])
  | (Except.ok (some m), rest) =>
    match h m with
    | Except.error e => Except.error e
    | Except.ok r =>
      match MessageCodec.encode c r [] with
      | Except.error e => Except.error e
      | Except.ok out =>
        match runPump c h rest with
        | Except.error e => Except.error e
        | Except.ok (more, trace) => Except.ok (out ++ more, m :: trace)
  termination_by src.length
  decreasing_by
    unfold MessageCodec.decode at hdec
    by_cases h4 : src.length < 4
    · simp [h4] at hdec
    · simp only [h4, if_false] at hdec
      rcases hr : read_u32_be src with - | ⟨L, bytes⟩
      · simp [hr] at hdec
      · simp only [hr] at hdec
        by_cases hb : bytes.length < L
        · simp [hb] at hdec
        · simp only [hb, if_false] at hdec
          rcases hfb : c.from_bytes bytes with - | msg
          · simp [hfb] at hdec
          · simp only [hfb, Prod.mk.injEq] at hdec
            obtain ⟨-, hrest⟩ := hdec
            subst hrest
            simp only [List.length_drop]
            omega

/-- The closure `incoming().map_err(log)` hands to `for_each`: an `ok`
accept event spawns one connection task, an error event is logged (the
error value is discarded by `map_err`) and spawns nothing. -/
def spawnOf {C : Type} : Except Unit C → Option C
  | Except.ok socket => some socket
  | Except.error _ => none

/-- The accept loop of `handle_clients` (src/agent.rs lines 66-84):
`$socket.incoming().map_err(|e| error!(..)).for_each(|socket| ..
tokio::spawn(connection))`.  `futures::StreamExt::for_each` (imported at
the top of the file) drives every item of the stream of accept results;
the value returned is the list of connections for which a pump task was
spawned, given the list of accept events in order. -/
def handle_clients {C : Type} (events : List (Except Unit C)) : List C :=
  events.filterMap spawnOf

/-- Poll state of an asynchronous result: either already completed with
a value or still pending. -/
inductive Poll (α : Type) where
  | ready (value : α)
  | pending

/-- Extract the value of an already-completed asynchronous result. -/
def awaitReady {α : Type} : Poll α → Option α
  | Poll.ready v => some v
  | Poll.pending => none

/-- The `Agent` trait (src/agent.rs lines 89-99): a synchronous handler
from request message to response message or error. -/
structure Agent (M E : Type) where
  handle : M → Except E M

/-- The provided default `Agent::handle_async` (src/agent.rs lines
94-99): `Box::new(self.handle(message))` — the synchronous result is
computed at call time and boxed as an already-completed future. -/
def Agent.handle_async {M E : Type} (a : Agent M E) (message : M) :
    Poll (Except E M) :=
  Poll.ready (a.handle message)

/-- Frames of a message sequence as laid out on the wire: the
collaborator payload of each message, wrapped in its outer serialized
form, concatenated in order. -/
def framesOf {M : Type} (enc : M → List Nat) : List M → List Nat
  | [] => []
  | m :: rest => to_bytes_blob (enc m) ++ framesOf enc rest

/-- Concrete collaborator codec used for witnesses: messages are byte
lists, serialized and deserialized by the identity (a byte-exact pair
that consumes its whole input). -/
def idCodec : ProtoCodec (List Nat) :=
  ⟨fun m => some m, fun b => some b⟩

/-- Deserializer of the self-delimiting witness codec: read a 4-byte
big-endian length, then exactly that many bytes; fail otherwise. -/
def pfx_from_bytes (b : List Nat) : Option (List Nat) :=
  match read_u32_be b with
  | none => none
  | some (L, rest) => if rest.length < L then none else some (rest.take L)

/-- Payload serialization of the self-delimiting witness codec. -/
def pfx_enc (m : List Nat) : List Nat :=
  u32be_bytes m.length ++ m

/-- Concrete collaborator codec used for witnesses: a self-delimiting
length-prefixed format whose deserializer ignores trailing bytes. -/
def pfxCodec : ProtoCodec (List Nat) :=
  ⟨fun m => some (pfx_enc m), pfx_from_bytes⟩

/-- Reading back the four big-endian bytes of a value below 2^32
recovers the value. -/
theorem u32_roundtrip (n : Nat) (h : n < 4294967296) :
    u32val (n / 16777216 % 256) (n / 65536 % 256) (n / 256 % 256) (n % 256) = n := by
  unfold u32val
  omega

/-- A successful 4-byte read exposes the shape of the buffer: four
header bytes followed by the returned remainder, the value being their
big-endian combination. -/
theorem read_u32_be_some {src : List Nat} {L : Nat} {bytes : List Nat}
    (h : read_u32_be src = some (L, bytes)) :
    ∃ b0 b1 b2 b3, src = b0 :: b1 :: b2 :: b3 :: bytes ∧ L = u32val b0 b1 b2 b3 := by
  match src with
  | [] => simp [read_u32_be] at h
  | [_] => simp [read_u32_be] at h
  | [_, _] => simp [read_u32_be] at h
  | [_, _, _] => simp [read_u32_be] at h
  | b0 :: b1 :: b2 :: b3 :: rest =>
    simp only [read_u32_be, Option.some.injEq, Prod.mk.injEq] at h
    exact ⟨b0, b1, b2, b3, by rw [h.2], h.1.symm⟩

/-- With at least four bytes buffered the 4-byte read cannot fail. -/
theorem read_u32_be_isSome {src : List Nat} (h : 4 ≤ src.length) :
    (read_u32_be src).isSome = true := by
  match src with
  | [] => simp at h
  | [_] => simp at h
  | [_, _] => simp at h
  | [_, _, _] => simp at h
  | _ :: _ :: _ :: _ :: _ => simp [read_u32_be]

/-- Decoding a buffer that starts with a full frame: the header
announces the payload length, the collaborator deserializer sees
everything after the header and succeeds, so decode returns the message
and drops exactly the frame. -/
theorem decode_frame {M : Type} (c : ProtoCodec M) (P tail : List Nat) (m : M)
    (hP : P.length < 4294967296)
    (hfb : c.from_bytes (P ++ tail) = some m) :
    MessageCodec.decode c (to_bytes_blob P ++ tail) = (Except.ok (some m), tail) := by
  unfold to_bytes_blob u32be_bytes
  unfold MessageCodec.decode
  rw [if_neg (by simp)]
  simp only [List.cons_append, List.nil_append, read_u32_be]
  rw [u32_roundtrip P.length hP]
  rw [if_neg (by simp)]
  rw [hfb]
  have hdrop : List.drop (4 + P.length)
      (P.length / 16777216 % 256 :: P.length / 65536 % 256 ::
        P.length / 256 % 256 :: P.length % 256 :: (P ++ tail)) = tail := by
    rw [show 4 + P.length = P.length + 1 + 1 + 1 + 1 from by omega]
    simp only [List.drop_succ_cons]
    exact List.drop_left P tail
  rw [hdrop]

/-- The pump stops cleanly when the decoder signals "need more data". -/
theorem runPump_none {M : Type} (c : ProtoCodec M) (h : M → Except AgentError M)
    (src b : List Nat)
    (hdec : MessageCodec.decode c src = (Except.ok none, b)) :
    runPump c h src = Except.ok ([], []) := by
  unfold runPump
  split
  · rename_i heq
    rw [hdec] at heq
    exact absurd heq (by simp)
  · rfl
  · rename_i heq
    rw [hdec] at heq
    exact absurd heq (by simp)

/-- One pump iteration: a decoded message is handled, its response
encoded and emitted, and the pump continues on the remaining buffer. -/
theorem runPump_step {M : Type} (c : ProtoCodec M) (h : M → Except AgentError M)
    (src : List Nat) (m r : M) (rest out more : List Nat) (trace : List M)
    (hdec : MessageCodec.decode c src = (Except.ok (some m), rest))
    (hh : h m = Except.ok r)
    (henc : MessageCodec.encode c r [] = Except.ok out)
    (hrec : runPump c h rest = Except.ok (more, trace)) :
    runPump c h src = Except.ok (out ++ more, m :: trace) := by
  unfold runPump
  split
  · rename_i heq
    rw [hdec] at heq
    exact absurd heq (by simp)
  · rename_i heq
    rw [hdec] at heq
    exact absurd heq (by simp)
  · rename_i m' rest' heq
    rw [hdec] at heq
    simp only [Prod.mk.injEq, Except.ok.injEq, Option.some.injEq] at heq
    obtain ⟨hm, hr⟩ := heq
    subst hm
    subst hr
    simp only [hh, henc, hrec]

/-- The self-delimiting witness codec ignores trailing bytes: its
deserializer recovers a message from its payload followed by anything. -/
theorem pfx_roundtrip (m rest : List Nat) (h : m.length < 4294967296) :
    pfx_from_bytes (pfx_enc m ++ rest) = some m := by
  unfold pfx_enc u32be_bytes pfx_from_bytes
  simp only [List.cons_append, List.nil_append, read_u32_be]
  rw [u32_roundtrip m.length h]
  rw [if_neg (by simp only [List.length_append]; omega)]
  rw [List.take_left]

/-- C1: round-trip of the frame codec: for every Message encodable by
the collaborator codec (a byte-exact pair on that Message, payload
below 2^32 bytes), feeding the bytes produced by `encode` into `decode`
yields exactly that Message and consumes the whole frame. -/
theorem c1_frame_roundtrip {M : Type} (c : ProtoCodec M) (m : M) (P : List Nat)
    (henc : c.to_bytes m = some P) (hlen : P.length < 4294967296)
    (hdec : c.from_bytes P = some m) :
    ∃ W, MessageCodec.encode c m [] = Except.ok W
      ∧ MessageCodec.decode c W = (Except.ok (some m), []) := by
  refine ⟨to_bytes_blob P, by simp [MessageCodec.encode, henc], ?_⟩
  have h := decode_frame c P [] m hlen (by simpa using hdec)
  simpa using h

/-- C1 witness: a concrete message round-trips through the frame codec
over the identity collaborator codec. -/
theorem c1_frame_roundtrip_witness :
    ∃ W, MessageCodec.encode idCodec [5, 6] [] = Except.ok W
      ∧ MessageCodec.decode idCodec W = (Except.ok (some [5, 6]), []) :=
  c1_frame_roundtrip idCodec [5, 6] [5, 6] rfl (by decide) rfl

/-- C3: with fewer than 4 buffered bytes, or with a declared length
exceeding the bytes that follow the header, decode returns the
"need more data" signal (`Ok(None)`, not an error), leaves the buffer
unchanged, and calling it again on the resulting buffer returns the
same signal with the buffer still unchanged. -/
theorem c3_need_more_data {M : Type} (c : ProtoCodec M) (src : List Nat)
    (h : src.length < 4
      ∨ ∃ L bytes, read_u32_be src = some (L, bytes) ∧ bytes.length < L) :
    MessageCodec.decode c src = (Except.ok none, src)
    ∧ MessageCodec.decode c (MessageCodec.decode c src).2
        = (Except.ok none, src) := by
  have h1 : MessageCodec.decode c src = (Except.ok none, src) := by
    rcases h with h4 | ⟨L, bytes, hr, hb⟩
    · simp [MessageCodec.decode, h4]
    · obtain ⟨b0, b1, b2, b3, hsrc, -⟩ := read_u32_be_some hr
      unfold MessageCodec.decode
      rw [if_neg (by rw [hsrc]; simp only [List.length_cons]; omega)]
      simp only [hr]
      rw [if_pos hb]
  refine ⟨h1, ?_⟩
  rw [h1]
  exact h1

/-- C3 witness: a buffer declaring 5 payload bytes but holding one is
left untouched with the "need more data" signal, twice in a row. -/
theorem c3_need_more_data_witness :
    MessageCodec.decode idCodec [0, 0, 0, 5, 1]
      = (Except.ok none, [0, 0, 0, 5, 1])
    ∧ MessageCodec.decode idCodec (MessageCodec.decode idCodec [0, 0, 0, 5, 1]).2
        = (Except.ok none, [0, 0, 0, 5, 1]) :=
  c3_need_more_data idCodec [0, 0, 0, 5, 1] (Or.inr ⟨5, [1], by decide, by decide⟩)

/-- C4: encode appends to the outgoing buffer exactly the bytes of the
doubly-wrapped serialization to_bytes(to_bytes(m)) and writes no
further explicit header itself; the 4-byte length prefix on the wire is
the one the outer serialization embeds for the payload P. -/
theorem c4_encode_double_wrap {M : Type} (c : ProtoCodec M) (m : M)
    (P dst : List Nat) (henc : c.to_bytes m = some P) :
    MessageCodec.encode c m dst = Except.ok (dst ++ to_bytes_blob P)
    ∧ to_bytes_blob P = u32be_bytes P.length ++ P :=
  ⟨by simp [MessageCodec.encode, henc], rfl⟩

/-- C4 witness: encoding a concrete message appends exactly its
doubly-wrapped serialization after the existing buffer contents. -/
theorem c4_encode_double_wrap_witness :
    MessageCodec.encode idCodec [7] [9] = Except.ok ([9] ++ to_bytes_blob [7])
    ∧ to_bytes_blob [7] = u32be_bytes (List.length [7]) ++ [7] :=
  c4_encode_double_wrap idCodec [7] [7] [9] rfl

/-- C6: a complete frame (declared length received in full) whose bytes
the collaborator deserializer rejects makes decode fail with a
Deserialize error — not the "need more data" signal. -/
theorem c6_deserialize_error {M : Type} (c : ProtoCodec M) (src : List Nat)
    (L : Nat) (bytes : List Nat)
    (hr : read_u32_be src = some (L, bytes))
    (hlen : L ≤ bytes.length)
    (hfb : c.from_bytes bytes = none) :
    MessageCodec.decode c src = (Except.error AgentError.Deserialize, src) := by
  obtain ⟨b0, b1, b2, b3, hsrc, -⟩ := read_u32_be_some hr
  unfold MessageCodec.decode
  rw [if_neg (by rw [hsrc]; simp only [List.length_cons]; omega)]
  simp only [hr]
  rw [if_neg (by omega)]
  simp only [hfb]

/-- C6 witness: a frame with declared length 0 whose (empty) payload
the self-delimiting codec rejects yields a Deserialize error. -/
theorem c6_deserialize_error_witness :
    MessageCodec.decode pfxCodec [0, 0, 0, 0]
      = (Except.error AgentError.Deserialize, [0, 0, 0, 0]) :=
  c6_deserialize_error pfxCodec [0, 0, 0, 0] 0 [] (by decide) (by decide) rfl

/-- C9: decode is atomic: whenever it returns an error, the receive
buffer is exactly as it was before the call (`advance` runs only on the
success path). -/
theorem c9_error_leaves_buffer {M : Type} (c : ProtoCodec M) (src : List Nat)
    (e : AgentError) (h : (MessageCodec.decode c src).1 = Except.error e) :
    (MessageCodec.decode c src).2 = src := by
  unfold MessageCodec.decode at h ⊢
  by_cases h4 : src.length < 4
  · simp [h4]
  · simp only [h4, if_false] at h ⊢
    rcases hr : read_u32_be src with - | ⟨L, bytes⟩
    · simp [hr]
    · simp only [hr] at h ⊢
      by_cases hb : bytes.length < L
      · simp [hb]
      · simp only [hb, if_false] at h ⊢
        rcases hfb : c.from_bytes bytes with - | msg
        · simp [hfb]
        · simp [hfb] at h

/-- C9 witness: a failing decode (rejected empty payload) leaves the
concrete buffer exactly as it was. -/
theorem c9_error_leaves_buffer_witness :
    (MessageCodec.decode pfxCodec [0, 0, 0, 0]).2 = [0, 0, 0, 0] :=
  c9_error_leaves_buffer pfxCodec [0, 0, 0, 0] AgentError.Deserialize rfl

/-- C10: every buffer access of decode is guarded by a length check:
with at least four buffered bytes the 4-byte header read cannot fail,
and therefore the Io error branch of decode is unreachable for every
collaborator codec and every buffer contents. -/
theorem c10_guarded_reads :
    (∀ src : List Nat, 4 ≤ src.length → (read_u32_be src).isSome = true)
    ∧ ∀ (M : Type) (c : ProtoCodec M) (src : List Nat),
        (MessageCodec.decode c src).1 ≠ Except.error AgentError.Io := by
  refine ⟨fun src h => read_u32_be_isSome h, ?_⟩
  intro M c src
  unfold MessageCodec.decode
  by_cases h4 : src.length < 4
  · simp [h4]
  · simp only [h4, if_false]
    rcases hr : read_u32_be src with - | ⟨L, bytes⟩
    · have hs : (read_u32_be src).isSome = true := read_u32_be_isSome (by omega)
      rw [hr] at hs
      simp at hs
    · by_cases hb : bytes.length < L
      · simp [hb]
      · simp only [hb, if_false]
        rcases hfb : c.from_bytes bytes with - | msg
        · simp
        · simp

/-- C10 witness: the guarded read succeeds on a 4-byte buffer, and a
concrete decode never lands in the Io error branch. -/
theorem c10_guarded_reads_witness :
    (read_u32_be [1, 2, 3, 4]).isSome = true
    ∧ (MessageCodec.decode idCodec [7]).1 ≠ Except.error AgentError.Io :=
  ⟨c10_guarded_reads.1 [1, 2, 3, 4] (by decide),
   c10_guarded_reads.2 (List Nat) idCodec [7]⟩

/-- C2 counterexample: the claim says a successful decode returns "the
Message obtained by deserializing exactly the L payload bytes that
follow the header".  With a collaborator decoder that is a byte-exact
pair consuming its whole input (the identity codec), a frame declaring
L = 1 followed by two trailing bytes decodes to the value of ALL three
bytes after the header, which differs from the value of exactly the
L = 1 payload bytes. -/
theorem c2_counterexample :
    MessageCodec.decode idCodec [0, 0, 0, 1, 9, 7, 7]
      = (Except.ok (some [9, 7, 7]), [7, 7])
    ∧ idCodec.from_bytes (List.take 1 (List.drop 4 [0, 0, 0, 1, 9, 7, 7]))
        = some [9]
    ∧ ([9, 7, 7] : List Nat) ≠ [9] :=
  ⟨rfl, rfl, by decide⟩

/-- C2 (amended): a successful decode returns the Message obtained by
applying the collaborator decoder to all bytes following the 4-byte
header (the L payload bytes together with any trailing bytes), removes
exactly 4 + L bytes from the front of the buffer, and leaves the
trailing bytes untouched in the buffer. -/
theorem c2_decode_consumes_frame {M : Type} (c : ProtoCodec M)
    (b0 b1 b2 b3 : Nat) (payload trailing : List Nat) (m : M)
    (hL : payload.length = u32val b0 b1 b2 b3)
    (hfb : c.from_bytes (payload ++ trailing) = some m) :
    MessageCodec.decode c (b0 :: b1 :: b2 :: b3 :: (payload ++ trailing))
      = (Except.ok (some m), trailing) := by
  unfold MessageCodec.decode
  rw [if_neg (by simp only [List.length_cons]; omega)]
  simp only [read_u32_be]
  rw [← hL]
  rw [if_neg (by simp only [List.length_append]; omega)]
  rw [hfb]
  have hdrop : List.drop (4 + payload.length)
      (b0 :: b1 :: b2 :: b3 :: (payload ++ trailing)) = trailing := by
    rw [show 4 + payload.length = payload.length + 1 + 1 + 1 + 1 from by omega]
    simp only [List.drop_succ_cons]
    exact List.drop_left payload trailing
  rw [hdrop]

/-- C2 witness (for the amended claim): a complete frame of declared
length 5 followed by two unrelated bytes decodes over the
self-delimiting codec; the message comes from the bytes after the
header and the two trailing bytes stay in the buffer. -/
theorem c2_decode_consumes_frame_witness :
    MessageCodec.decode pfxCodec (0 :: 0 :: 0 :: 5 :: ([0, 0, 0, 1, 7] ++ [9, 9]))
      = (Except.ok (some [7]), [9, 9]) :=
  c2_decode_consumes_frame pfxCodec 0 0 0 5 [0, 0, 0, 1, 7] [9, 9] [7]
    (by decide) (by decide)

/-- C5: on one connection whose handler succeeds on every arriving
message, the pump hands each decoded message to the handler exactly
once and in arrival order (the invocation trace equals the request
list), and the bytes written back are the frames of the handler's
responses pointwise in that same order — no pipelining or reordering. -/
theorem c5_pump_in_order {M : Type} (c : ProtoCodec M)
    (h : M → Except AgentError M) (f : M → M) (enc : M → List Nat) :
    ∀ ms : List M,
      (∀ m ∈ ms, (enc m).length < 4294967296) →
      (∀ m ∈ ms, ∀ rest : List Nat, c.from_bytes (enc m ++ rest) = some m) →
      (∀ m ∈ ms, h m = Except.ok (f m)) →
      (∀ m ∈ ms, c.to_bytes (f m) = some (enc (f m))) →
      runPump c h (framesOf enc ms)
        = Except.ok (framesOf enc (ms.map f), ms) := by
  intro ms
  induction ms with
  | nil =>
    intro _ _ _ _
    simp only [framesOf, List.map_nil]
    exact runPump_none c h [] [] (by simp [MessageCodec.decode])
  | cons m rest ih =>
    intro hlen hfb hh hresp
    have hdec : MessageCodec.decode c (framesOf enc (m :: rest))
        = (Except.ok (some m), framesOf enc rest) := by
      show MessageCodec.decode c (to_bytes_blob (enc m) ++ framesOf enc rest) = _
      exact decode_frame c (enc m) (framesOf enc rest) m
        (hlen m (List.mem_cons_self m rest))
        (hfb m (List.mem_cons_self m rest) (framesOf enc rest))
    have henc : MessageCodec.encode c (f m) []
        = Except.ok (to_bytes_blob (enc (f m))) := by
      simp [MessageCodec.encode, hresp m (List.mem_cons_self m rest)]
    have hrec := ih
      (fun x hx => hlen x (List.mem_cons_of_mem m hx))
      (fun x hx => hfb x (List.mem_cons_of_mem m hx))
      (fun x hx => hh x (List.mem_cons_of_mem m hx))
      (fun x hx => hresp x (List.mem_cons_of_mem m hx))
    have hstep := runPump_step c h (framesOf enc (m :: rest)) m (f m)
      (framesOf enc rest) (to_bytes_blob (enc (f m)))
      (framesOf enc (rest.map f)) rest hdec
      (hh m (List.mem_cons_self m rest)) henc hrec
    rw [hstep]
    simp [framesOf]

/-- C5 witness: two concrete frames pumped through an echo handler over
the self-delimiting codec produce the echoed frames in order, with the
handler trace equal to the request sequence. -/
theorem c5_pump_in_order_witness :
    runPump pfxCodec (fun m => Except.ok m) (framesOf pfx_enc [[1], [2, 3]])
      = Except.ok (framesOf pfx_enc [[1], [2, 3]], [[1], [2, 3]]) := by
  have h := c5_pump_in_order pfxCodec (fun m => Except.ok m) (fun m => m)
    pfx_enc [[1], [2, 3]]
    (by decide)
    (fun m hm rest => by
      rcases List.mem_cons.mp hm with rfl | hm2
      · exact pfx_roundtrip [1] rest (by decide)
      · rcases List.mem_cons.mp hm2 with rfl | hm3
        · exact pfx_roundtrip [2, 3] rest (by decide)
        · simp at hm3)
    (fun m _ => rfl)
    (fun m _ => rfl)
  simpa using h

/-- C7: a failed accept does not stop the accept loop: the connections
spawned from an event sequence containing an accept error are exactly
those spawned from the events before it together with those spawned
from the events after it — later successful accepts still spawn their
connection tasks. -/
theorem c7_accept_error_continues :
    ∀ (C : Type) (pre post : List (Except Unit C)),
      handle_clients (pre ++ Except.error () :: post)
        = handle_clients pre ++ handle_clients post := by
  intro C pre post
  simp [handle_clients, List.filterMap_append, List.filterMap_cons, spawnOf]

/-- C8: the default handle_async adapter wraps the synchronous result
as an already-completed asynchronous value: it is ready immediately
(never pending) and awaiting it yields exactly the result of handle. -/
theorem c8_handle_async_default :
    ∀ (M E : Type) (a : Agent M E) (m : M),
      Agent.handle_async a m = Poll.ready (a.handle m)
      ∧ awaitReady (Agent.handle_async a m) = some (a.handle m) :=
  fun _ _ _ _ => ⟨rfl, rfl⟩
